import Mathlib

/-!
Verification of the core selection algorithm of `scripts/build_ca_dictionary.py`:
the validity filter (`is_valid_word`), the feature extractor (`get_features`),
the coverage selector (`select_words`, with its include / seed / greedy / pad
phases) and the level orchestrator (`build_level_words`).

Words are modelled as `List Char` (a Python string is a character sequence),
Python `set`s as `Finset`, and the feature-tag strings `"letter:c"`,
`"symbol:c"`, `"digraph:d"` as the tagged union `Feature` (the three prefixes
make the string encoding injective, so this is faithful).
-/

abbrev Word := List Char

/-- Master letter alphabet, `LETTERS` in the script. -/
def LETTERS : List Char := "abcdefghijklmnopqrstuvwxyzàáèéíïòóúüçñ".toList

/-- Master symbol alphabet, `SYMBOLS` in the script. -/
def SYMBOLS : List Char := [Char.ofNat 39, '’', '-', '·']

/-- Master digraph list, `DIGRAPHS` in the script. -/
def DIGRAPHS : List Word :=
  (["ny", "ll", "rr", "qu", "qü", "gu", "gü", "ig", "ix", "tx", "tg", "tj",
    "ss", "l·l"] : List String).map String.toList

/-- Feature tags: the script's strings `letter:{ch}`, `symbol:{ch}`, `digraph:{d}`. -/
inductive Feature where
  | Letter (c : Char)
  | Symbol (c : Char)
  | Digraph (d : Word)
deriving DecidableEq, Repr

/-- Loop body of `is_valid_word`: walk the word, tracking `has_letter`;
return `false` on the first character outside the master alphabet. -/
def validGo : Word → Bool → Bool
  | [], hasLetter => hasLetter
  | ch :: rest, hasLetter =>
    if ch ∈ LETTERS ∨ ch ∈ SYMBOLS then
      validGo rest (hasLetter || decide (ch ∈ LETTERS))
    else false

/-- `is_valid_word` from the script: empty words are rejected, every character
must be in the master alphabet, and at least one letter is required. -/
def is_valid_word (word : Word) : Bool :=
  if word = [] then false else validGo word false

/-- Per-character classification inside `get_features`: letters to `Letter`,
symbols to `Symbol`, everything else contributes nothing. -/
def charFeature (ch : Char) : Option Feature :=
  if ch ∈ LETTERS then some (Feature.Letter ch)
  else if ch ∈ SYMBOLS then some (Feature.Symbol ch)
  else none

/-- The set of letter/symbol features collected by the character loop of
`get_features`. -/
def charFeatures (word : Word) : Finset Feature :=
  (word.filterMap charFeature).toFinset

/-- The set of digraph features collected by the digraph loop of
`get_features`: `Digraph d` for each listed digraph occurring as a contiguous
substring (`d in word`) of the word. -/
def digraphFeatures (word : Word) (digraphs : List Word) : Finset Feature :=
  ((digraphs.filter (fun d => decide (d <:+: word))).map Feature.Digraph).toFinset

/-- `get_features` from the script. -/
def get_features (word : Word) (digraphs : List Word) : Finset Feature :=
  charFeatures word ∪ digraphFeatures word digraphs

/-- Include phase of `select_words`: walk `include_words` in order, appending
each word not already selected; `Sum.inl` is the early return taken as soon as
`target_size` is reached, `Sum.inr` continues with the accumulated selection. -/
def includeLoop (target_size : Nat) : List Word → List Word → List Word ⊕ List Word
  | [], selected => Sum.inr selected
  | w :: rest, selected =>
    if w ∈ selected then includeLoop target_size rest selected
    else if target_size ≤ (selected ++ [w]).length then Sum.inl (selected ++ [w])
    else includeLoop target_size rest (selected ++ [w])

/-- Seed phase of `select_words`: walk the candidates in frequency order,
appending unselected words; stop once the selection has at least `seed_size`
words (checked after each append, as in the script). -/
def seedLoop (seed_size : Nat) : List (Word × Nat) → List Word → List Word
  | [], selected => selected
  | (w, _) :: rest, selected =>
    if w ∈ selected then seedLoop seed_size rest selected
    else if seed_size ≤ (selected ++ [w]).length then selected ++ [w]
    else seedLoop seed_size rest (selected ++ [w])

/-- Greedy gain of a word: `len(get_features(word, digraphs) & missing)`. -/
def gainOf (digraphs : List Word) (missing : Finset Feature) (w : Word) : Nat :=
  (get_features w digraphs ∩ missing).card

/-- Inner scan of the greedy phase: track `best_word`/`best_gain`, updating on
a strictly greater gain (`gain > best_gain`), skipping selected words. -/
def bestLoop (selected : List Word) (digraphs : List Word) (missing : Finset Feature) :
    List (Word × Nat) → Option Word → Nat → Option Word
  | [], best, _ => best
  | (w, _) :: rest, best, bestGain =>
    if w ∈ selected then bestLoop selected digraphs missing rest best bestGain
    else if bestGain < gainOf digraphs missing w then
      bestLoop selected digraphs missing rest (some w) (gainOf digraphs missing w)
    else bestLoop selected digraphs missing rest best bestGain

/-- One full candidate scan of the greedy phase, starting from
`best_word = None`, `best_gain = 0`. -/
def bestCandidate (candidates : List (Word × Nat)) (selected : List Word)
    (digraphs : List Word) (missing : Finset Feature) : Option Word :=
  bestLoop selected digraphs missing candidates none 0

/-- Greedy `while missing and len(selected) < target_size` loop, rendered with
explicit fuel; each iteration appends one word, so `target_size -
selected.length` units of fuel reproduce the loop exactly (see `greedyLoop`). -/
def greedyGo (candidates : List (Word × Nat)) (digraphs : List Word) (target_size : Nat) :
    Nat → List Word → Finset Feature → List Word × Finset Feature
  | 0, selected, missing => (selected, missing)
  | fuel + 1, selected, missing =>
    if missing ≠ ∅ ∧ selected.length < target_size then
      match bestCandidate candidates selected digraphs missing with
      | none => (selected, missing)
      | some w =>
        greedyGo candidates digraphs target_size fuel (selected ++ [w])
          (missing \ get_features w digraphs)
    else (selected, missing)

/-- Greedy phase of `select_words`. -/
def greedyLoop (candidates : List (Word × Nat)) (digraphs : List Word) (target_size : Nat)
    (selected : List Word) (missing : Finset Feature) : List Word × Finset Feature :=
  greedyGo candidates digraphs target_size (target_size - selected.length) selected missing

/-- Pad phase of `select_words`: walk the candidates once more, appending
unselected words until `target_size` is reached or candidates run out. -/
def padLoop (target_size : Nat) : List (Word × Nat) → List Word → List Word
  | [], selected => selected
  | (w, _) :: rest, selected =>
    if target_size ≤ selected.length then selected
    else if w ∈ selected then padLoop target_size rest selected
    else padLoop target_size rest (selected ++ [w])

/-- The target feature set of `select_words`: a `letter:` tag per allowed
letter, a `symbol:` tag per allowed symbol, a `digraph:` tag per required
digraph. -/
def targetFeatures (allowed_letters allowed_symbols : Finset Char)
    (required_digraphs : List Word) : Finset Feature :=
  allowed_letters.image Feature.Letter ∪ allowed_symbols.image Feature.Symbol ∪
    (required_digraphs.map Feature.Digraph).toFinset

/-- Union of the feature sets of the selected words (`covered` in the script). -/
def coveredFeatures (selected : List Word) (required_digraphs : List Word) : Finset Feature :=
  selected.foldl (fun s w => s ∪ get_features w required_digraphs) ∅

/-- `select_words` from the script: include phase (with its early return),
seed phase, missing-feature computation, greedy phase, pad phase. -/
def select_words (words : List (Word × Nat)) (target_size seed_size candidate_size : Nat)
    (allowed_letters allowed_symbols : Finset Char) (required_digraphs : List Word)
    (include_words : List Word) : List Word × Finset Feature :=
  let candidates := if candidate_size = 0 then words else words.take candidate_size
  match includeLoop target_size include_words [] with
  | Sum.inl selected => (selected, ∅)
  | Sum.inr selected₀ =>
    let selected₁ := seedLoop seed_size candidates selected₀
    let missing :=
      targetFeatures allowed_letters allowed_symbols required_digraphs \
        coveredFeatures selected₁ required_digraphs
    let res := greedyLoop candidates required_digraphs target_size selected₁ missing
    (padLoop target_size candidates res.1, res.2)

/-- One level specification from the levels config. -/
structure Level where
  name : String
  target_size : Nat
  seed_size : Nat
  add_chars : List Char
  add_symbols : List Char
  add_digraphs : List Word
  include_words : List Word

/-- The cumulative alphabet state threaded through `build_level_words`. -/
structure AlphaState where
  allowed_letters : Finset Char
  allowed_symbols : Finset Char
  required_digraphs : List Word

/-- Initial (empty) cumulative alphabet state. -/
def initState : AlphaState := ⟨∅, ∅, []⟩

/-- Folding one level's additions into the cumulative alphabet state:
set union for letters and symbols, list append for digraphs. -/
def stepState (st : AlphaState) (lv : Level) : AlphaState :=
  { allowed_letters := st.allowed_letters ∪ lv.add_chars.toFinset
    allowed_symbols := st.allowed_symbols ∪ lv.add_symbols.toFinset
    required_digraphs := st.required_digraphs ++ lv.add_digraphs }

/-- Cumulative alphabet state after the first `n` levels have been folded in. -/
def stateAfter (levels : List Level) (n : Nat) : AlphaState :=
  (levels.take n).foldl stepState initState

/-- The per-level candidate pool: master words whose every character lies in
the current cumulative letter+symbol alphabet (`st` is the state before this
level; the level's own additions are folded in first, as in the loop body). -/
def levelFiltered (words : List (Word × Nat)) (st : AlphaState) (lv : Level) :
    List (Word × Nat) :=
  let st' := stepState st lv
  words.filter fun p =>
    p.1.all fun ch => decide (ch ∈ st'.allowed_letters ∨ ch ∈ st'.allowed_symbols)

/-- The level's include words, lowercased and filtered by the same cumulative
alphabet; words failing the filter are silently dropped. -/
def levelInclude (st : AlphaState) (lv : Level) : List Word :=
  let st' := stepState st lv
  (lv.include_words.map fun w => w.map Char.toLower).filter fun w =>
    w.all fun ch => decide (ch ∈ st'.allowed_letters ∨ ch ∈ st'.allowed_symbols)

/-- The level's effective target size: clamped down to the filtered pool size
when the pool is smaller than requested. -/
def levelTarget (words : List (Word × Nat)) (st : AlphaState) (lv : Level) : Nat :=
  min lv.target_size (levelFiltered words st lv).length

/-- One iteration of the `build_level_words` loop body (after the alphabet
state has been threaded in): filter the pool, normalize the include words,
emit the sentinel on an empty pool, otherwise clamp the sizes and run
`select_words`. -/
def levelOutput (words : List (Word × Nat)) (candidate_size : Nat) (output_dir : String)
    (st : AlphaState) (lv : Level) : String × List Word × Finset Feature :=
  let st' := stepState st lv
  let filtered := levelFiltered words st lv
  let ninc := levelInclude st lv
  if filtered = [] then (lv.name, [], ∅)
  else
    let t := levelTarget words st lv
    let res := select_words filtered t (min lv.seed_size t) candidate_size
      st'.allowed_letters st'.allowed_symbols st'.required_digraphs ninc
    (output_dir ++ "/" ++ lv.name ++ ".txt", res.1, res.2)

/-- The level iteration of `build_level_words`, threading the cumulative
alphabet state. -/
def buildGo (words : List (Word × Nat)) (candidate_size : Nat) (output_dir : String) :
    AlphaState → List Level → List (String × List Word × Finset Feature)
  | _, [] => []
  | st, lv :: rest =>
    levelOutput words candidate_size output_dir st lv ::
      buildGo words candidate_size output_dir (stepState st lv) rest

/-- `build_level_words` from the script: hard error on an empty level list,
otherwise the sequential level iteration from the empty cumulative state. -/
def build_level_words (words : List (Word × Nat)) (levels : List Level)
    (candidate_size : Nat) (output_dir : String) :
    Except String (List (String × List Word × Finset Feature)) :=
  match levels with
  | [] => Except.error "No levels defined in levels config."
  | _ :: _ => Except.ok (buildGo words candidate_size output_dir initState levels)

/-- First-occurrence deduplication relative to an already-seen list: the list
of words the include phase appends when it never reaches `target_size`. -/
def includeList (seen : List Word) : List Word → List Word
  | [] => []
  | w :: rest =>
    if w ∈ seen then includeList seen rest
    else w :: includeList (seen ++ [w]) rest

section ValidityLemmas

lemma validGo_true_iff (w : Word) : ∀ hl : Bool,
    validGo w hl = true ↔
      ((∀ ch ∈ w, ch ∈ LETTERS ∨ ch ∈ SYMBOLS) ∧
        (hl = true ∨ ∃ ch ∈ w, ch ∈ LETTERS)) := by
  induction w with
  | nil => intro hl; simp [validGo]
  | cons ch rest ih =>
    intro hl
    by_cases h : ch ∈ LETTERS ∨ ch ∈ SYMBOLS
    · rw [validGo, if_pos h, ih]
      simp only [List.mem_cons, Bool.or_eq_true, decide_eq_true_eq]
      constructor
      · rintro ⟨hall, hlet⟩
        refine ⟨?_, ?_⟩
        · rintro c (rfl | hc)
          · exact h
          · exact hall c hc
        · rcases hlet with (hhl | hch) | ⟨c, hc, hcl⟩
          · exact Or.inl hhl
          · exact Or.inr ⟨ch, Or.inl rfl, hch⟩
          · exact Or.inr ⟨c, Or.inr hc, hcl⟩
      · rintro ⟨hall, hlet⟩
        refine ⟨fun c hc => hall c (Or.inr hc), ?_⟩
        rcases hlet with hhl | ⟨c, (rfl | hc), hcl⟩
        · exact Or.inl (Or.inl hhl)
        · exact Or.inl (Or.inr hcl)
        · exact Or.inr ⟨c, hc, hcl⟩
    · rw [validGo, if_neg h]
      simp only [Bool.false_eq_true, false_iff]
      rintro ⟨hall, -⟩
      exact h (hall ch (List.mem_cons_self ch rest))
end ValidityLemmas

/-- C7: `is_valid_word word` is true iff the word is non-empty, every
character lies in the master letter or symbol alphabet, and at least one
character is a letter; so the empty word, any word with a character outside
the master alphabet, and any symbol-only word are all rejected. -/
theorem is_valid_word_iff (word : Word) :
    is_valid_word word = true ↔
      (word ≠ [] ∧ (∀ ch ∈ word, ch ∈ LETTERS ∨ ch ∈ SYMBOLS) ∧
        ∃ ch ∈ word, ch ∈ LETTERS) := by
  unfold is_valid_word
  by_cases hw : word = []
  · subst hw; simp
  · rw [if_neg hw, validGo_true_iff]
    simp [hw]

theorem is_valid_word_iff_witness :
    is_valid_word ['c', 'a'] = true ∧ is_valid_word [] = false := by
  constructor
  · exact (is_valid_word_iff ['c', 'a']).mpr
      ⟨by decide, by decide, ⟨'c', by decide, by decide⟩⟩
  · have h := (is_valid_word_iff []).mp
    cases hb : is_valid_word [] with
    | false => rfl
    | true => exact absurd rfl (h hb).1

section FeatureLemmas

lemma charFeature_ne_digraph (ch : Char) (d : Word) :
    charFeature ch ≠ some (Feature.Digraph d) := by
  unfold charFeature
  split
  · simp
  · split <;> simp

lemma digraph_mem_digraphFeatures (w d : Word) (ds : List Word) :
    Feature.Digraph d ∈ digraphFeatures w ds ↔ d ∈ ds ∧ d <:+: w := by
  simp [digraphFeatures]

lemma charFeatures_perm {w w' : Word} (h : w.Perm w') :
    charFeatures w = charFeatures w' :=
  List.toFinset_eq_of_perm _ _ (h.filterMap charFeature)

end FeatureLemmas

/-- C8: `get_features` is a pure function of the word and the digraph list
(equal arguments give equal results), the character-scan part of the result
does not depend on the order in which the characters are scanned, and for
every digraph `d` in the list, `Digraph d` is in the result (a set, so at
most once) exactly when `d` occurs as a contiguous substring of the word. -/
theorem get_features_spec (w w' : Word) (ds : List Word) :
    (∀ w₂ ds₂, w = w₂ → ds = ds₂ → get_features w ds = get_features w₂ ds₂) ∧
    (w.Perm w' → charFeatures w = charFeatures w' ∧
      get_features w ds = charFeatures w ∪ digraphFeatures w ds) ∧
    (∀ d ∈ ds, (Feature.Digraph d ∈ get_features w ds ↔ d <:+: w)) := by
  refine ⟨?_, ?_, ?_⟩
  · rintro w₂ ds₂ rfl rfl; rfl
  · intro h
    exact ⟨charFeatures_perm h, rfl⟩
  · intro d hd
    unfold get_features
    rw [Finset.mem_union, digraph_mem_digraphFeatures]
    constructor
    · rintro (hc | ⟨-, hi⟩)
      · rw [charFeatures, List.mem_toFinset, List.mem_filterMap] at hc
        obtain ⟨ch, -, hch⟩ := hc
        exact absurd hch (charFeature_ne_digraph ch d)
      · exact hi
    · intro hi
      exact Or.inr ⟨hd, hi⟩

theorem get_features_spec_witness :
    charFeatures ['n', 'y'] = charFeatures ['y', 'n'] ∧
    Feature.Digraph ['n', 'y'] ∈ get_features ['n', 'y'] DIGRAPHS := by
  constructor
  · exact ((get_features_spec ['n', 'y'] ['y', 'n'] DIGRAPHS).2.1 (by decide)).1
  · exact ((get_features_spec ['n', 'y'] ['y', 'n'] DIGRAPHS).2.2 ['n', 'y']
      (by decide)).mpr (by decide)

section IncludeLemmas

lemma nodup_push {l : List Word} {w : Word} (h : l.Nodup) (hw : w ∉ l) :
    (l ++ [w]).Nodup := by
  simp [List.nodup_append, h, hw]

lemma includeLoop_inr_eq (t : Nat) :
    ∀ (inc sel s : List Word), includeLoop t inc sel = Sum.inr s →
      s = sel ++ includeList sel inc := by
  intro inc
  induction inc with
  | nil =>
    intro sel s h
    simp only [includeLoop, Sum.inr.injEq] at h
    simp [includeList, ← h]
  | cons w rest ih =>
    intro sel s h
    rw [includeLoop] at h
    rw [includeList]
    by_cases hw : w ∈ sel
    · rw [if_pos hw] at h ⊢
      exact ih sel s h
    · rw [if_neg hw] at h ⊢
      by_cases ht : t ≤ (sel ++ [w]).length
      · rw [if_pos ht] at h
        exact absurd h (by simp)
      · rw [if_neg ht] at h
        have := ih (sel ++ [w]) s h
        simpa [List.append_assoc] using this

lemma includeLoop_inl_eq (t : Nat) :
    ∀ (inc sel : List Word), sel.length < t →
      t ≤ sel.length + (includeList sel inc).length →
      includeLoop t inc sel = Sum.inl ((sel ++ includeList sel inc).take t) := by
  intro inc
  induction inc with
  | nil =>
    intro sel hlt hle
    rw [includeList] at hle
    simp only [List.length_nil] at hle
    omega
  | cons w rest ih =>
    intro sel hlt hle
    rw [includeList] at hle ⊢
    rw [includeLoop]
    by_cases hw : w ∈ sel
    · rw [if_pos hw] at hle ⊢
      rw [if_pos hw]
      exact ih sel hlt hle
    · rw [if_neg hw] at hle ⊢
      rw [if_neg hw]
      by_cases ht : t ≤ (sel ++ [w]).length
      · rw [if_pos ht]
        have hlen : (sel ++ [w]).length = sel.length + 1 := by simp
        have htt : t = sel.length + 1 := by omega
        have hkey : (sel ++ w :: includeList (sel ++ [w]) rest).take t = sel ++ [w] := by
          rw [htt,
            show sel ++ w :: includeList (sel ++ [w]) rest
              = (sel ++ [w]) ++ includeList (sel ++ [w]) rest by simp,
            List.take_append_of_le_length (by simp)]
          simp
        rw [hkey]
      · rw [if_neg ht]
        have hlen : (sel ++ [w]).length = sel.length + 1 := by simp
        have h1 : (sel ++ [w]).length < t := by omega
        have h2 : t ≤ (sel ++ [w]).length + (includeList (sel ++ [w]) rest).length := by
          simp only [hlen]
          simp only [List.length_cons] at hle
          omega
        rw [ih (sel ++ [w]) h1 h2]
        congr 1
        simp

lemma includeLoop_inr_lt (t : Nat) :
    ∀ (inc sel s : List Word), sel.length < t →
      includeLoop t inc sel = Sum.inr s → s.length < t := by
  intro inc
  induction inc with
  | nil =>
    intro sel s hlt h
    simp only [includeLoop, Sum.inr.injEq] at h
    exact h ▸ hlt
  | cons w rest ih =>
    intro sel s hlt h
    rw [includeLoop] at h
    by_cases hw : w ∈ sel
    · rw [if_pos hw] at h
      exact ih sel s hlt h
    · rw [if_neg hw] at h
      by_cases ht : t ≤ (sel ++ [w]).length
      · rw [if_pos ht] at h
        exact absurd h (by simp)
      · rw [if_neg ht] at h
        exact ih (sel ++ [w]) s (by simp at ht ⊢; omega) h

lemma includeLoop_inl_nodup (t : Nat) :
    ∀ (inc sel s : List Word), sel.Nodup → includeLoop t inc sel = Sum.inl s →
      s.Nodup := by
  intro inc
  induction inc with
  | nil =>
    intro sel s _ h
    exact absurd h (by simp [includeLoop])
  | cons w rest ih =>
    intro sel s hnd h
    rw [includeLoop] at h
    by_cases hw : w ∈ sel
    · rw [if_pos hw] at h
      exact ih sel s hnd h
    · rw [if_neg hw] at h
      by_cases ht : t ≤ (sel ++ [w]).length
      · rw [if_pos ht] at h
        simp only [Sum.inl.injEq] at h
        rw [← h]
        exact nodup_push hnd hw
      · rw [if_neg ht] at h
        exact ih (sel ++ [w]) s (nodup_push hnd hw) h

lemma includeLoop_inr_nodup (t : Nat) :
    ∀ (inc sel s : List Word), sel.Nodup → includeLoop t inc sel = Sum.inr s →
      s.Nodup := by
  intro inc
  induction inc with
  | nil =>
    intro sel s hnd h
    simp only [includeLoop, Sum.inr.injEq] at h
    rwa [← h]
  | cons w rest ih =>
    intro sel s hnd h
    rw [includeLoop] at h
    by_cases hw : w ∈ sel
    · rw [if_pos hw] at h
      exact ih sel s hnd h
    · rw [if_neg hw] at h
      by_cases ht : t ≤ (sel ++ [w]).length
      · rw [if_pos ht] at h
        exact absurd h (by simp)
      · rw [if_neg ht] at h
        exact ih (sel ++ [w]) s (nodup_push hnd hw) h

lemma includeList_sublist : ∀ (inc seen : List Word), (includeList seen inc).Sublist inc := by
  intro inc
  induction inc with
  | nil => intro seen; simp [includeList]
  | cons w rest ih =>
    intro seen
    rw [includeList]
    by_cases hw : w ∈ seen
    · rw [if_pos hw]
      exact (ih seen).cons w
    · rw [if_neg hw]
      exact (ih (seen ++ [w])).cons₂ w

lemma includeList_complete :
    ∀ (inc seen : List Word) (w : Word), w ∈ inc → w ∈ seen ∨ w ∈ includeList seen inc := by
  intro inc
  induction inc with
  | nil => intro seen w h; exact absurd h (List.not_mem_nil w)
  | cons v rest ih =>
    intro seen w h
    rw [includeList]
    by_cases hv : v ∈ seen
    · rw [if_pos hv]
      rcases List.mem_cons.mp h with rfl | hw
      · exact Or.inl hv
      · exact ih seen w hw
    · rw [if_neg hv]
      rcases List.mem_cons.mp h with rfl | hw
      · exact Or.inr (List.mem_cons_self w _)
      · rcases ih (seen ++ [v]) w hw with hs | hs
        · rcases List.mem_append.mp hs with hs | hs
          · exact Or.inl hs
          · simp only [List.mem_singleton] at hs
            exact Or.inr (hs ▸ List.mem_cons_self v _)
        · exact Or.inr (List.mem_cons_of_mem v hs)

end IncludeLemmas

section PhaseLemmas

lemma seedLoop_append (n : Nat) :
    ∀ (c : List (Word × Nat)) (sel : List Word), ∃ r, seedLoop n c sel = sel ++ r := by
  intro c
  induction c with
  | nil => intro sel; exact ⟨[], by simp [seedLoop]⟩
  | cons p rest ih =>
    intro sel
    obtain ⟨w, f⟩ := p
    rw [seedLoop]
    by_cases hw : w ∈ sel
    · rw [if_pos hw]; exact ih sel
    · rw [if_neg hw]
      by_cases hn : n ≤ (sel ++ [w]).length
      · rw [if_pos hn]; exact ⟨[w], rfl⟩
      · rw [if_neg hn]
        obtain ⟨r, hr⟩ := ih (sel ++ [w])
        exact ⟨[w] ++ r, by rw [hr, List.append_assoc]⟩

lemma seedLoop_nodup (n : Nat) :
    ∀ (c : List (Word × Nat)) (sel : List Word), sel.Nodup → (seedLoop n c sel).Nodup := by
  intro c
  induction c with
  | nil => intro sel h; simpa [seedLoop] using h
  | cons p rest ih =>
    intro sel h
    obtain ⟨w, f⟩ := p
    rw [seedLoop]
    by_cases hw : w ∈ sel
    · rw [if_pos hw]; exact ih sel h
    · rw [if_neg hw]
      by_cases hn : n ≤ (sel ++ [w]).length
      · rw [if_pos hn]; exact nodup_push h hw
      · rw [if_neg hn]; exact ih (sel ++ [w]) (nodup_push h hw)

lemma seedLoop_le (n t : Nat) (hn : n ≤ t) :
    ∀ (c : List (Word × Nat)) (sel : List Word), sel.length < t →
      (seedLoop n c sel).length ≤ t := by
  intro c
  induction c with
  | nil => intro sel h; rw [seedLoop]; omega
  | cons p rest ih =>
    intro sel h
    obtain ⟨w, f⟩ := p
    rw [seedLoop]
    by_cases hw : w ∈ sel
    · rw [if_pos hw]; exact ih sel h
    · rw [if_neg hw]
      by_cases hle : n ≤ (sel ++ [w]).length
      · rw [if_pos hle]; simp; omega
      · rw [if_neg hle]
        refine ih (sel ++ [w]) ?_
        simp only [List.length_append, List.length_singleton] at hle ⊢
        omega

lemma padLoop_append (t : Nat) :
    ∀ (c : List (Word × Nat)) (sel : List Word), ∃ r, padLoop t c sel = sel ++ r := by
  intro c
  induction c with
  | nil => intro sel; exact ⟨[], by simp [padLoop]⟩
  | cons p rest ih =>
    intro sel
    obtain ⟨w, f⟩ := p
    rw [padLoop]
    by_cases ht : t ≤ sel.length
    · rw [if_pos ht]; exact ⟨[], by simp⟩
    · rw [if_neg ht]
      by_cases hw : w ∈ sel
      · rw [if_pos hw]; exact ih sel
      · rw [if_neg hw]
        obtain ⟨r, hr⟩ := ih (sel ++ [w])
        exact ⟨[w] ++ r, by rw [hr, List.append_assoc]⟩

lemma padLoop_nodup (t : Nat) :
    ∀ (c : List (Word × Nat)) (sel : List Word), sel.Nodup → (padLoop t c sel).Nodup := by
  intro c
  induction c with
  | nil => intro sel h; simpa [padLoop] using h
  | cons p rest ih =>
    intro sel h
    obtain ⟨w, f⟩ := p
    rw [padLoop]
    by_cases ht : t ≤ sel.length
    · rw [if_pos ht]; exact h
    · rw [if_neg ht]
      by_cases hw : w ∈ sel
      · rw [if_pos hw]; exact ih sel h
      · rw [if_neg hw]; exact ih (sel ++ [w]) (nodup_push h hw)

lemma padLoop_le (t : Nat) :
    ∀ (c : List (Word × Nat)) (sel : List Word), sel.length ≤ t →
      (padLoop t c sel).length ≤ t := by
  intro c
  induction c with
  | nil => intro sel h; simpa [padLoop] using h
  | cons p rest ih =>
    intro sel h
    obtain ⟨w, f⟩ := p
    rw [padLoop]
    by_cases ht : t ≤ sel.length
    · rw [if_pos ht]; exact h
    · rw [if_neg ht]
      by_cases hw : w ∈ sel
      · rw [if_pos hw]; exact ih sel h
      · rw [if_neg hw]
        refine ih (sel ++ [w]) ?_
        simp only [List.length_append, List.length_singleton]
        omega

lemma bestLoop_some_ne_none (sel ds : List Word) (m : Finset Feature) :
    ∀ (c : List (Word × Nat)) (w : Word) (bg : Nat),
      bestLoop sel ds m c (some w) bg ≠ none := by
  intro c
  induction c with
  | nil => intro w bg; simp [bestLoop]
  | cons p rest ih =>
    intro w bg
    obtain ⟨v, f⟩ := p
    rw [bestLoop]
    by_cases hv : v ∈ sel
    · rw [if_pos hv]; exact ih w bg
    · rw [if_neg hv]
      by_cases hg : bg < gainOf ds m v
      · rw [if_pos hg]; exact ih v (gainOf ds m v)
      · rw [if_neg hg]; exact ih w bg

lemma bestLoop_none_bound (sel ds : List Word) (m : Finset Feature) :
    ∀ (c : List (Word × Nat)) (best : Option Word) (bg : Nat),
      bestLoop sel ds m c best bg = none →
      ∀ p ∈ c, p.1 ∉ sel → gainOf ds m p.1 ≤ bg := by
  intro c
  induction c with
  | nil => intro best bg _ p hp; exact absurd hp (List.not_mem_nil p)
  | cons q rest ih =>
    intro best bg h p hp hps
    obtain ⟨v, f⟩ := q
    rw [bestLoop] at h
    by_cases hv : v ∈ sel
    · rw [if_pos hv] at h
      rcases List.mem_cons.mp hp with rfl | hp'
      · exact absurd hv hps
      · exact ih best bg h p hp' hps
    · rw [if_neg hv] at h
      by_cases hg : bg < gainOf ds m v
      · rw [if_pos hg] at h
        exact absurd h (bestLoop_some_ne_none sel ds m rest v (gainOf ds m v))
      · rw [if_neg hg] at h
        rcases List.mem_cons.mp hp with rfl | hp'
        · show gainOf ds m v ≤ bg
          omega
        · exact ih best bg h p hp' hps

lemma bestLoop_some_spec (sel ds : List Word) (m : Finset Feature) (w : Word) :
    ∀ (c : List (Word × Nat)) (best : Option Word) (bg : Nat),
      bestLoop sel ds m c best bg = some w →
      (best = some w ∧ ∀ p ∈ c, p.1 ∉ sel → gainOf ds m p.1 ≤ bg) ∨
      (∃ pre f post, c = pre ++ (w, f) :: post ∧ w ∉ sel ∧ bg < gainOf ds m w ∧
        (∀ p ∈ pre, p.1 ∉ sel → gainOf ds m p.1 < gainOf ds m w) ∧
        (∀ p ∈ post, p.1 ∉ sel → gainOf ds m p.1 ≤ gainOf ds m w)) := by
  intro c
  induction c with
  | nil =>
    intro best bg h
    simp only [bestLoop] at h
    exact Or.inl ⟨h, fun p hp => absurd hp (List.not_mem_nil p)⟩
  | cons q rest ih =>
    intro best bg h
    obtain ⟨v, f⟩ := q
    rw [bestLoop] at h
    by_cases hv : v ∈ sel
    · rw [if_pos hv] at h
      rcases ih best bg h with ⟨hb, hall⟩ | ⟨pre, f', post, hc, hw, hbg, hpre, hpost⟩
      · refine Or.inl ⟨hb, ?_⟩
        rintro p hp hps
        rcases List.mem_cons.mp hp with rfl | hp'
        · exact absurd hv hps
        · exact hall p hp' hps
      · refine Or.inr ⟨(v, f) :: pre, f', post, by rw [hc, List.cons_append], hw, hbg, ?_, hpost⟩
        rintro p hp hps
        rcases List.mem_cons.mp hp with rfl | hp'
        · exact absurd hv hps
        · exact hpre p hp' hps
    · rw [if_neg hv] at h
      by_cases hg : bg < gainOf ds m v
      · rw [if_pos hg] at h
        rcases ih (some v) (gainOf ds m v) h with
          ⟨hb, hall⟩ | ⟨pre, f', post, hc, hw, hbg, hpre, hpost⟩
        · obtain rfl : v = w := by injection hb
          refine Or.inr ⟨[], f, rest, rfl, hv, hg, ?_, hall⟩
          rintro p hp
          exact absurd hp (List.not_mem_nil p)
        · refine Or.inr ⟨(v, f) :: pre, f', post, by rw [hc, List.cons_append], hw, by omega, ?_, hpost⟩
          rintro p hp hps
          rcases List.mem_cons.mp hp with rfl | hp'
          · exact hbg
          · exact hpre p hp' hps
      · rw [if_neg hg] at h
        rcases ih best bg h with ⟨hb, hall⟩ | ⟨pre, f', post, hc, hw, hbg, hpre, hpost⟩
        · refine Or.inl ⟨hb, ?_⟩
          rintro p hp hps
          rcases List.mem_cons.mp hp with rfl | hp'
          · show gainOf ds m v ≤ bg
            omega
          · exact hall p hp' hps
        · refine Or.inr ⟨(v, f) :: pre, f', post, by rw [hc, List.cons_append], hw, hbg, ?_, hpost⟩
          rintro p hp hps
          rcases List.mem_cons.mp hp with rfl | hp'
          · show gainOf ds m v < gainOf ds m w
            omega
          · exact hpre p hp' hps

lemma bestCandidate_some_spec {c : List (Word × Nat)} {sel ds : List Word}
    {m : Finset Feature} {w : Word} (h : bestCandidate c sel ds m = some w) :
    ∃ pre f post, c = pre ++ (w, f) :: post ∧ w ∉ sel ∧ 0 < gainOf ds m w ∧
      (∀ p ∈ pre, p.1 ∉ sel → gainOf ds m p.1 < gainOf ds m w) ∧
      (∀ p ∈ post, p.1 ∉ sel → gainOf ds m p.1 ≤ gainOf ds m w) := by
  rcases bestLoop_some_spec sel ds m w c none 0 h with ⟨hb, -⟩ | hspec
  · exact absurd hb (by simp)
  · exact hspec

lemma bestCandidate_not_mem {c : List (Word × Nat)} {sel ds : List Word}
    {m : Finset Feature} {w : Word} (h : bestCandidate c sel ds m = some w) :
    w ∉ sel := by
  obtain ⟨-, -, -, -, hw, -⟩ := bestCandidate_some_spec h
  exact hw

lemma bestCandidate_none_bound {c : List (Word × Nat)} {sel ds : List Word}
    {m : Finset Feature} (h : bestCandidate c sel ds m = none) :
    ∀ p ∈ c, p.1 ∉ sel → gainOf ds m p.1 = 0 := by
  intro p hp hps
  have := bestLoop_none_bound sel ds m c none 0 h p hp hps
  omega

lemma greedyGo_append (c : List (Word × Nat)) (ds : List Word) (t : Nat) :
    ∀ (fuel : Nat) (sel : List Word) (m : Finset Feature),
      ∃ r, (greedyGo c ds t fuel sel m).1 = sel ++ r := by
  intro fuel
  induction fuel with
  | zero => intro sel m; exact ⟨[], by simp [greedyGo]⟩
  | succ n ih =>
    intro sel m
    rw [greedyGo]
    by_cases hcond : m ≠ ∅ ∧ sel.length < t
    · rw [if_pos hcond]
      cases hbc : bestCandidate c sel ds m with
      | none => exact ⟨[], by simp⟩
      | some w =>
        obtain ⟨r, hr⟩ := ih (sel ++ [w]) (m \ get_features w ds)
        exact ⟨[w] ++ r, by rw [hr, List.append_assoc]⟩
    · rw [if_neg hcond]; exact ⟨[], by simp⟩

lemma greedyGo_nodup (c : List (Word × Nat)) (ds : List Word) (t : Nat) :
    ∀ (fuel : Nat) (sel : List Word) (m : Finset Feature), sel.Nodup →
      (greedyGo c ds t fuel sel m).1.Nodup := by
  intro fuel
  induction fuel with
  | zero => intro sel m h; simpa [greedyGo] using h
  | succ n ih =>
    intro sel m h
    rw [greedyGo]
    by_cases hcond : m ≠ ∅ ∧ sel.length < t
    · rw [if_pos hcond]
      cases hbc : bestCandidate c sel ds m with
      | none => exact h
      | some w => exact ih (sel ++ [w]) _ (nodup_push h (bestCandidate_not_mem hbc))
    · rw [if_neg hcond]; exact h

lemma greedyGo_le (c : List (Word × Nat)) (ds : List Word) (t : Nat) :
    ∀ (fuel : Nat) (sel : List Word) (m : Finset Feature), sel.length ≤ t →
      (greedyGo c ds t fuel sel m).1.length ≤ t := by
  intro fuel
  induction fuel with
  | zero => intro sel m h; simpa [greedyGo] using h
  | succ n ih =>
    intro sel m h
    rw [greedyGo]
    by_cases hcond : m ≠ ∅ ∧ sel.length < t
    · rw [if_pos hcond]
      cases hbc : bestCandidate c sel ds m with
      | none => exact h
      | some w =>
        refine ih (sel ++ [w]) _ ?_
        simp only [List.length_append, List.length_singleton]
        omega
    · rw [if_neg hcond]; exact h

end PhaseLemmas

section SelectWordsLemmas

lemma includeLoop_inl_length (t : Nat) :
    ∀ (inc sel s : List Word), sel.length < t →
      includeLoop t inc sel = Sum.inl s → s.length = t := by
  intro inc
  induction inc with
  | nil =>
    intro sel s _ h
    exact absurd h (by simp [includeLoop])
  | cons w rest ih =>
    intro sel s hlt h
    rw [includeLoop] at h
    by_cases hw : w ∈ sel
    · rw [if_pos hw] at h
      exact ih sel s hlt h
    · rw [if_neg hw] at h
      by_cases ht : t ≤ (sel ++ [w]).length
      · rw [if_pos ht] at h
        simp only [Sum.inl.injEq] at h
        rw [← h]
        simp only [List.length_append, List.length_singleton] at ht ⊢
        omega
      · rw [if_neg ht] at h
        exact ih (sel ++ [w]) s (by simp at ht ⊢; omega) h

lemma select_words_inl (words : List (Word × Nat)) (t n cs : Nat)
    (al as : Finset Char) (ds inc : List Word) (s : List Word)
    (h : includeLoop t inc [] = Sum.inl s) :
    select_words words t n cs al as ds inc = (s, ∅) := by
  unfold select_words
  rw [h]

lemma select_words_inr (words : List (Word × Nat)) (t n cs : Nat)
    (al as : Finset Char) (ds inc : List Word) (s : List Word)
    (h : includeLoop t inc [] = Sum.inr s) :
    select_words words t n cs al as ds inc =
      (padLoop t (if cs = 0 then words else words.take cs)
        (greedyLoop (if cs = 0 then words else words.take cs) ds t
          (seedLoop n (if cs = 0 then words else words.take cs) s)
          (targetFeatures al as ds \
            coveredFeatures (seedLoop n (if cs = 0 then words else words.take cs) s) ds)).1,
       (greedyLoop (if cs = 0 then words else words.take cs) ds t
          (seedLoop n (if cs = 0 then words else words.take cs) s)
          (targetFeatures al as ds \
            coveredFeatures (seedLoop n (if cs = 0 then words else words.take cs) s) ds)).2) := by
  unfold select_words
  rw [h]

end SelectWordsLemmas

/-- C1 counterexample: at target_size = 0 (with seed_size = 0) the seed phase
still appends one candidate before checking the bound, so the returned list
has length 1 > target_size. -/
theorem select_words_c1_counterexample :
    ¬ ((select_words [(['a'], 1)] 0 0 0 ∅ ∅ [] []).1.length ≤ 0) := by decide

/-- C1 (amended): for every call to `select_words`, the returned selected
list contains no word twice; and provided `target_size ≥ 1` and
`seed_size ≤ target_size`, its length is at most `target_size` (so in
particular the pad phase never re-adds an already-selected word and never
pushes the length past `target_size`). -/
theorem select_words_invariant (words : List (Word × Nat)) (t n cs : Nat)
    (al as : Finset Char) (ds inc : List Word) :
    (select_words words t n cs al as ds inc).1.Nodup ∧
    (1 ≤ t → n ≤ t → (select_words words t n cs al as ds inc).1.length ≤ t) := by
  cases h : includeLoop t inc [] with
  | inl s =>
    rw [select_words_inl words t n cs al as ds inc s h]
    refine ⟨includeLoop_inl_nodup t inc [] s List.nodup_nil h, ?_⟩
    intro h1 _
    have := includeLoop_inl_length t inc [] s (by simpa using h1) h
    simp [this]
  | inr s =>
    rw [select_words_inr words t n cs al as ds inc s h]
    constructor
    · apply padLoop_nodup
      unfold greedyLoop
      apply greedyGo_nodup
      apply seedLoop_nodup
      exact includeLoop_inr_nodup t inc [] s List.nodup_nil h
    · intro h1 h2
      apply padLoop_le
      unfold greedyLoop
      apply greedyGo_le
      apply seedLoop_le n t h2
      exact includeLoop_inr_lt t inc [] s (by simpa using h1) h

theorem select_words_invariant_witness :
    (select_words [(['a'], 1), (['b'], 1)] 2 1 0 ∅ ∅ [] []).1.Nodup ∧
    (select_words [(['a'], 1), (['b'], 1)] 2 1 0 ∅ ∅ [] []).1.length ≤ 2 :=
  ⟨(select_words_invariant [(['a'], 1), (['b'], 1)] 2 1 0 ∅ ∅ [] []).1,
   (select_words_invariant [(['a'], 1), (['b'], 1)] 2 1 0 ∅ ∅ [] []).2
     (by decide) (by decide)⟩

/-- C2: when the deduplicated include words alone reach `target_size`
(≥ 1), `select_words` returns immediately: the selected list is exactly the
include-derived list (first occurrences, in given order) truncated at
`target_size`, and the missing set is empty regardless of coverage. -/
theorem select_words_include_shortcut (words : List (Word × Nat)) (t n cs : Nat)
    (al as : Finset Char) (ds inc : List Word)
    (h1 : 1 ≤ t) (h2 : t ≤ (includeList [] inc).length) :
    select_words words t n cs al as ds inc = ((includeList [] inc).take t, ∅) := by
  have h := includeLoop_inl_eq t inc [] (by simp only [List.length_nil]; omega)
    (by simpa using h2)
  rw [select_words_inl words t n cs al as ds inc _ h]
  simp

theorem select_words_include_shortcut_witness :
    select_words [] 1 0 0 ∅ ∅ [] [['x', 'y', 'z']] = ([['x', 'y', 'z']], ∅) := by
  rw [select_words_include_shortcut [] 1 0 0 ∅ ∅ [] [['x', 'y', 'z']]
    (by decide) (by decide)]
  decide

/-- C3: a successful greedy scan picks an unselected candidate with strictly
positive gain, strictly greater gain than every unselected candidate scanned
before it and at least the gain of every candidate (ties broken toward the
earliest-scanned, most frequent word); that word is then appended and its
features removed from the missing set; a scan with no positive gain stops the
loop, returning the selection and the remaining missing set as data. On
Scenario A the result is `(["a", "b"], ∅)`. -/
theorem greedy_phase_spec (c : List (Word × Nat)) (sel ds : List Word) (t : Nat)
    (m : Finset Feature) (w : Word) :
    (bestCandidate c sel ds m = some w →
      ∃ pre f post, c = pre ++ (w, f) :: post ∧ w ∉ sel ∧ 0 < gainOf ds m w ∧
        (∀ p ∈ pre, p.1 ∉ sel → gainOf ds m p.1 < gainOf ds m w) ∧
        (∀ p ∈ c, p.1 ∉ sel → gainOf ds m p.1 ≤ gainOf ds m w)) ∧
    (bestCandidate c sel ds m = some w → m ≠ ∅ → sel.length < t →
      greedyLoop c ds t sel m =
        greedyLoop c ds t (sel ++ [w]) (m \ get_features w ds)) ∧
    (bestCandidate c sel ds m = none →
      greedyLoop c ds t sel m = (sel, m) ∧
      ∀ p ∈ c, p.1 ∉ sel → gainOf ds m p.1 = 0) ∧
    select_words [(['a'], 100), (['b'], 90), (['a', 'b'], 80)] 2 1 0 {'a', 'b'} ∅ [] [] =
      ([['a'], ['b']], ∅) := by
  refine ⟨?_, ?_, ?_, by decide⟩
  · intro h
    obtain ⟨pre, f, post, hc, hw, hg, hpre, hpost⟩ := bestCandidate_some_spec h
    refine ⟨pre, f, post, hc, hw, hg, hpre, ?_⟩
    intro p hp hps
    rw [hc] at hp
    rcases List.mem_append.mp hp with hp' | hp'
    · exact le_of_lt (hpre p hp' hps)
    · rcases List.mem_cons.mp hp' with rfl | hp''
      · exact le_refl _
      · exact hpost p hp'' hps
  · intro hbc hm hlt
    obtain ⟨k, hk⟩ : ∃ k, t - sel.length = k + 1 := ⟨t - sel.length - 1, by omega⟩
    unfold greedyLoop
    rw [hk, greedyGo, if_pos ⟨hm, hlt⟩, hbc]
    have : t - (sel ++ [w]).length = k := by
      simp only [List.length_append, List.length_singleton]
      omega
    rw [this]
  · intro hbc
    refine ⟨?_, bestCandidate_none_bound hbc⟩
    unfold greedyLoop
    cases hf : t - sel.length with
    | zero => rw [greedyGo]
    | succ k =>
      rw [greedyGo]
      by_cases hcond : m ≠ ∅ ∧ sel.length < t
      · rw [if_pos hcond, hbc]
      · rw [if_neg hcond]

theorem greedy_phase_spec_witness :
    greedyLoop [] [] 5 [] (∅ : Finset Feature) = ([], ∅) ∧
    select_words [(['a'], 100), (['b'], 90), (['a', 'b'], 80)] 2 1 0 {'a', 'b'} ∅ [] [] =
      ([['a'], ['b']], ∅) :=
  ⟨((greedy_phase_spec [] [] [] 5 ∅ []).2.2.1 (by decide)).1,
   (greedy_phase_spec [] [] [] 0 ∅ []).2.2.2⟩

/-- C6: when the include phase does not by itself reach `target_size`, the
list it builds is exactly the first-occurrence deduplication of
`include_words` (so every distinct include word appears, in given order),
and it is a prefix of the final selected list — the seed, greedy and pad
phases only append after it. -/
theorem select_words_include_precede (words : List (Word × Nat)) (t n cs : Nat)
    (al as : Finset Char) (ds inc : List Word) (s : List Word)
    (h : includeLoop t inc [] = Sum.inr s) :
    s = includeList [] inc ∧ s.Sublist inc ∧ (∀ w ∈ inc, w ∈ s) ∧
    ∃ rest, (select_words words t n cs al as ds inc).1 = s ++ rest := by
  have hs : s = includeList [] inc := by
    simpa using includeLoop_inr_eq t inc [] s h
  refine ⟨hs, ?_, ?_, ?_⟩
  · rw [hs]; exact includeList_sublist inc []
  · intro w hw
    rcases includeList_complete inc [] w hw with h0 | h0
    · exact absurd h0 (List.not_mem_nil w)
    · rw [hs]; exact h0
  · rw [select_words_inr words t n cs al as ds inc s h]
    obtain ⟨r1, hr1⟩ :=
      seedLoop_append n (if cs = 0 then words else words.take cs) s
    unfold greedyLoop
    obtain ⟨r2, hr2⟩ :=
      greedyGo_append (if cs = 0 then words else words.take cs) ds t _
        (seedLoop n (if cs = 0 then words else words.take cs) s)
        (targetFeatures al as ds \
          coveredFeatures (seedLoop n (if cs = 0 then words else words.take cs) s) ds)
    obtain ⟨r3, hr3⟩ :=
      padLoop_append t (if cs = 0 then words else words.take cs)
        ((greedyGo (if cs = 0 then words else words.take cs) ds t
          (t - (seedLoop n (if cs = 0 then words else words.take cs) s).length)
          (seedLoop n (if cs = 0 then words else words.take cs) s)
          (targetFeatures al as ds \
            coveredFeatures (seedLoop n (if cs = 0 then words else words.take cs) s) ds)).1)
    refine ⟨r1 ++ (r2 ++ r3), ?_⟩
    rw [hr3, hr2, hr1]
    simp [List.append_assoc]

theorem select_words_include_precede_witness :
    ∃ rest, (select_words [] 5 0 0 ∅ ∅ [] [['a']]).1 = [['a']] ++ rest :=
  (select_words_include_precede [] 5 0 0 ∅ ∅ [] [['a']] [['a']] (by decide)).2.2.2

section OrchestratorLemmas

lemma stepState_mono (st : AlphaState) (lv : Level) :
    st.allowed_letters ⊆ (stepState st lv).allowed_letters ∧
    st.allowed_symbols ⊆ (stepState st lv).allowed_symbols ∧
    ∀ d ∈ st.required_digraphs, d ∈ (stepState st lv).required_digraphs := by
  refine ⟨Finset.subset_union_left, Finset.subset_union_left, ?_⟩
  intro d hd
  exact List.mem_append.mpr (Or.inl hd)

lemma foldl_stepState_mono (lvs : List Level) :
    ∀ st : AlphaState,
      st.allowed_letters ⊆ (lvs.foldl stepState st).allowed_letters ∧
      st.allowed_symbols ⊆ (lvs.foldl stepState st).allowed_symbols ∧
      ∀ d ∈ st.required_digraphs, d ∈ (lvs.foldl stepState st).required_digraphs := by
  induction lvs with
  | nil => intro st; exact ⟨Finset.Subset.refl _, Finset.Subset.refl _, fun d hd => hd⟩
  | cons lv rest ih =>
    intro st
    have h1 := stepState_mono st lv
    have h2 := ih (stepState st lv)
    rw [List.foldl_cons]
    exact ⟨h1.1.trans h2.1, h1.2.1.trans h2.2.1,
      fun d hd => h2.2.2 d (h1.2.2 d hd)⟩

lemma stateAfter_mono (levels : List Level) {i j : Nat} (h : i ≤ j) :
    (stateAfter levels i).allowed_letters ⊆ (stateAfter levels j).allowed_letters ∧
    (stateAfter levels i).allowed_symbols ⊆ (stateAfter levels j).allowed_symbols ∧
    ∀ d ∈ (stateAfter levels i).required_digraphs,
      d ∈ (stateAfter levels j).required_digraphs := by
  have hj : j = i + (j - i) := by omega
  have htake : levels.take j = levels.take i ++ (levels.drop i).take (j - i) := by
    conv_lhs => rw [hj]
    rw [List.take_add]
  unfold stateAfter
  rw [htake, List.foldl_append]
  exact foldl_stepState_mono ((levels.drop i).take (j - i)) _

lemma buildGo_get (words : List (Word × Nat)) (cs : Nat) (dir : String) :
    ∀ (levels : List Level) (st : AlphaState) (k : Nat),
      (buildGo words cs dir st levels).get? k =
        (levels.get? k).map
          (fun lv => levelOutput words cs dir ((levels.take k).foldl stepState st) lv) := by
  intro levels
  induction levels with
  | nil => intro st k; simp [buildGo]
  | cons lv rest ih =>
    intro st k
    cases k with
    | zero => simp [buildGo]
    | succ k' =>
      rw [buildGo]
      simp only [List.get?_cons_succ, List.take_succ_cons, List.foldl_cons]
      exact ih (stepState st lv) k'

end OrchestratorLemmas

/-- C4: the cumulative alphabet state of the Level Orchestrator only grows:
for level indices i < j, the allowed letters and symbols at level i are
subsets of those at level j, every digraph required at level i is still
required at level j, and the orchestrator's k-th output is produced from the
cumulative state after the first k levels. -/
theorem build_levels_alphabet_monotone (levels : List Level) (i j : Nat) (h : i < j) :
    (stateAfter levels (i + 1)).allowed_letters ⊆
      (stateAfter levels (j + 1)).allowed_letters ∧
    (stateAfter levels (i + 1)).allowed_symbols ⊆
      (stateAfter levels (j + 1)).allowed_symbols ∧
    (∀ d ∈ (stateAfter levels (i + 1)).required_digraphs,
      d ∈ (stateAfter levels (j + 1)).required_digraphs) ∧
    ∀ (words : List (Word × Nat)) (cs : Nat) (dir : String),
      (buildGo words cs dir initState levels).get? i =
        (levels.get? i).map (levelOutput words cs dir (stateAfter levels i)) := by
  have hm := stateAfter_mono levels (show i + 1 ≤ j + 1 by omega)
  refine ⟨hm.1, hm.2.1, hm.2.2, ?_⟩
  intro words cs dir
  exact buildGo_get words cs dir levels initState i

theorem build_levels_alphabet_monotone_witness :
    (stateAfter [⟨"one", 1, 1, ['a'], [], [], []⟩, ⟨"two", 1, 1, ['b'], [], [], []⟩]
        (0 + 1)).allowed_letters ⊆
      (stateAfter [⟨"one", 1, 1, ['a'], [], [], []⟩, ⟨"two", 1, 1, ['b'], [], [], []⟩]
        (1 + 1)).allowed_letters :=
  (build_levels_alphabet_monotone
    [⟨"one", 1, 1, ['a'], [], [], []⟩, ⟨"two", 1, 1, ['b'], [], [], []⟩] 0 1
    (by decide)).1

/-- C5: a level whose cumulative-alphabet-filtered candidate pool is empty
produces the sentinel `(name, [], ∅)` — `select_words` is not consulted —
and the orchestrator continues with the remaining levels using the updated
cumulative state, without raising. -/
theorem level_empty_pool_sentinel (words : List (Word × Nat)) (cs : Nat) (dir : String)
    (st : AlphaState) (lv : Level) (h : levelFiltered words st lv = []) :
    levelOutput words cs dir st lv = (lv.name, [], ∅) ∧
    ∀ rest, buildGo words cs dir st (lv :: rest) =
      (lv.name, [], ∅) :: buildGo words cs dir (stepState st lv) rest := by
  have h1 : levelOutput words cs dir st lv = (lv.name, [], ∅) := by
    unfold levelOutput
    rw [if_pos h]
  exact ⟨h1, fun rest => by rw [buildGo, h1]⟩

theorem level_empty_pool_sentinel_witness :
    levelOutput [(['z'], 1)] 0 "dictionary" initState ⟨"L1", 5, 2, [], [], [], []⟩ =
      ("L1", [], ∅) :=
  (level_empty_pool_sentinel [(['z'], 1)] 0 "dictionary" initState
    ⟨"L1", 5, 2, [], [], [], []⟩ (by decide)).1

section MissingLemmas

lemma letter_not_mem_get_features {c : Char} (hc : c ∉ LETTERS) (w : Word)
    (ds : List Word) : Feature.Letter c ∉ get_features w ds := by
  intro hmem
  rcases Finset.mem_union.mp hmem with h | h
  · rw [charFeatures, List.mem_toFinset, List.mem_filterMap] at h
    obtain ⟨ch, -, he⟩ := h
    rw [charFeature] at he
    by_cases h1 : ch ∈ LETTERS
    · rw [if_pos h1] at he
      simp only [Option.some.injEq, Feature.Letter.injEq] at he
      exact hc (he ▸ h1)
    · rw [if_neg h1] at he
      by_cases h2 : ch ∈ SYMBOLS
      · rw [if_pos h2] at he
        simp at he
      · rw [if_neg h2] at he
        simp at he
  · rw [digraphFeatures, List.mem_toFinset, List.mem_map] at h
    obtain ⟨d, -, he⟩ := h
    simp at he

lemma letter_not_mem_covered {c : Char} (hc : c ∉ LETTERS) (ds : List Word) :
    ∀ (sel : List Word) (acc : Finset Feature), Feature.Letter c ∉ acc →
      Feature.Letter c ∉ sel.foldl (fun s w => s ∪ get_features w ds) acc := by
  intro sel
  induction sel with
  | nil => intro acc h; simpa using h
  | cons w rest ih =>
    intro acc h
    rw [List.foldl_cons]
    refine ih _ ?_
    rw [Finset.mem_union]
    rintro (h1 | h1)
    · exact h h1
    · exact letter_not_mem_get_features hc w ds h1

lemma greedyGo_letter_missing {c : Char} (hc : c ∉ LETTERS)
    (cands : List (Word × Nat)) (ds : List Word) (t : Nat) :
    ∀ (fuel : Nat) (sel : List Word) (m : Finset Feature), Feature.Letter c ∈ m →
      Feature.Letter c ∈ (greedyGo cands ds t fuel sel m).2 := by
  intro fuel
  induction fuel with
  | zero => intro sel m hm; simpa [greedyGo] using hm
  | succ n ih =>
    intro sel m hm
    rw [greedyGo]
    by_cases hcond : m ≠ ∅ ∧ sel.length < t
    · rw [if_pos hcond]
      cases hbc : bestCandidate cands sel ds m with
      | none => exact hm
      | some w =>
        refine ih (sel ++ [w]) _ ?_
        rw [Finset.mem_sdiff]
        exact ⟨hm, letter_not_mem_get_features hc w ds⟩
    · rw [if_neg hcond]; exact hm

lemma select_words_letter_missing (words : List (Word × Nat)) (t n cs : Nat)
    (al as : Finset Char) (ds inc : List Word) {c : Char}
    (hal : c ∈ al) (hc : c ∉ LETTERS) (s : List Word)
    (h : includeLoop t inc [] = Sum.inr s) :
    Feature.Letter c ∈ (select_words words t n cs al as ds inc).2 := by
  rw [select_words_inr words t n cs al as ds inc s h]
  dsimp only
  unfold greedyLoop
  apply greedyGo_letter_missing hc
  rw [Finset.mem_sdiff]
  constructor
  · unfold targetFeatures
    exact Finset.mem_union_left _
      (Finset.mem_union_left _ (Finset.mem_image_of_mem _ hal))
  · exact letter_not_mem_covered hc ds _ ∅ (Finset.not_mem_empty _)

end MissingLemmas

/-- C9: `get_features` classifies against the fixed master `LETTERS` set
(the tag `Letter c` is unreachable for any `c` outside it), so a level whose
`add_chars` introduces such a `c` can never cover `letter:c`; whenever the
level's coverage is actually computed (non-empty filtered pool, no
include-phase short-circuit), `Letter c` ends up in the returned missing
set. -/
theorem level_nonmaster_letter_missing (words : List (Word × Nat)) (cs : Nat)
    (dir : String) (st : AlphaState) (lv : Level) (c : Char)
    (h1 : c ∈ lv.add_chars) (h2 : c ∉ LETTERS)
    (h3 : ¬ levelFiltered words st lv = [])
    (h4 : ∃ s, includeLoop (levelTarget words st lv) (levelInclude st lv) [] = Sum.inr s) :
    (∀ (w : Word) (ds : List Word), Feature.Letter c ∉ get_features w ds) ∧
    Feature.Letter c ∈ (levelOutput words cs dir st lv).2.2 := by
  refine ⟨fun w ds => letter_not_mem_get_features h2 w ds, ?_⟩
  obtain ⟨s, hs⟩ := h4
  unfold levelOutput
  rw [if_neg h3]
  dsimp only
  exact select_words_letter_missing _ _ _ _ _ _ _ _
    (Finset.mem_union_right _ (List.mem_toFinset.mpr h1)) h2 s hs

theorem level_nonmaster_letter_missing_witness :
    Feature.Letter '1' ∈ (levelOutput [(['a'], 5)] 0 "dictionary" initState
      ⟨"L1", 3, 1, ['a', '1'], [], [], []⟩).2.2 :=
  (level_nonmaster_letter_missing [(['a'], 5)] 0 "dictionary" initState
    ⟨"L1", 3, 1, ['a', '1'], [], [], []⟩ '1' (by decide) (by decide) (by decide)
    ⟨[], by decide⟩).2

/-- C10: include words bypass the zero-letter validity rule: `is_valid_word`
rejects every non-empty word containing no master letter, yet a symbol-only
include word (here `"-"` with `"-"` among the level's symbols) passes the
cumulative-alphabet include filter and is appended to the level's selected
output. -/
theorem include_bypasses_validity :
    (∀ w : Word, w ≠ [] → (∀ ch ∈ w, ch ∉ LETTERS) → is_valid_word w = false) ∧
    (['-'] : Word) ∈ levelInclude initState ⟨"L1", 2, 1, ['a', 'b'], ['-'], [], [['-']]⟩ ∧
    (['-'] : Word) ∈ (levelOutput [(['a', 'b'], 10), (['a'], 5)] 0 "dictionary" initState
      ⟨"L1", 2, 1, ['a', 'b'], ['-'], [], [['-']]⟩).2.1 ∧
    is_valid_word ['-'] = false := by
  refine ⟨?_, by decide, by decide, by decide⟩
  intro w hne hall
  unfold is_valid_word
  rw [if_neg hne]
  cases hb : validGo w false with
  | false => rfl
  | true =>
    obtain ⟨-, hcase⟩ := (validGo_true_iff w false).mp hb
    rcases hcase with hfalse | ⟨ch, hch, hl⟩
    · exact absurd hfalse (by simp)
    · exact absurd hl (hall ch hch)

theorem include_bypasses_validity_witness :
    is_valid_word ['·'] = false ∧
    (['-'] : Word) ∈ (levelOutput [(['a', 'b'], 10), (['a'], 5)] 0 "dictionary" initState
      ⟨"L1", 2, 1, ['a', 'b'], ['-'], [], [['-']]⟩).2.1 :=
  ⟨include_bypasses_validity.1 ['·'] (by decide) (by decide),
   include_bypasses_validity.2.2.1⟩
